import Mathlib

/-!
Verification of the MongoDB schema extraction tool: a shallow embedding of the
schema-discovery and flattening code of `schema-extraction-tool.ts`, together
with theorems checking the specification's claims against that embedding.
-/

namespace SchemaExtractionTool

/-- A JavaScript/BSON runtime value as manipulated by the tool: primitives,
`null`, `undefined`, objects (ordered key/value pairs) and arrays. -/
inductive Value : Type where
  | vString : String → Value
  | vNumber : Int → Value
  | vBool : Bool → Value
  | vNull : Value
  | vUndefined : Value
  | vObject : List (String × Value) → Value
  | vArray : List Value → Value

/-- A document is a list of key/value pairs in insertion order. -/
abbrev Doc := List (String × Value)

/-- JavaScript `Array.isArray`. -/
def isJsArray : Value → Bool
  | .vArray _ => true
  | _ => false

/-- JavaScript `typeof` on the modelled values: note `typeof null` and
`typeof` of an array are both `"object"`. -/
def typeofTag : Value → String
  | .vString _ => "string"
  | .vNumber _ => "number"
  | .vBool _ => "boolean"
  | .vNull => "object"
  | .vUndefined => "undefined"
  | .vObject _ => "object"
  | .vArray _ => "object"

/-- `getFieldType` from the source:
`if (Array.isArray(value)) return "array"; return typeof value`. -/
def getFieldType (value : Value) : String :=
  if isJsArray value then "array" else typeofTag value

/-- Index keys of a JavaScript array as seen by `for...in`:
`("0", e0), ("1", e1), ...`. -/
def enumPairs (i : Nat) : List Value → List (String × Value)
  | [] => []
  | v :: rest => (toString i, v) :: enumPairs (i + 1) rest

/-- Index properties of a boxed JavaScript string as seen by `for...in`:
each position holds a one-character string. -/
def enumChars (i : Nat) : List Char → List (String × Value)
  | [] => []
  | c :: rest => (toString i, Value.vString (String.mk [c])) :: enumChars (i + 1) rest

/-- Own enumerable properties visited by `for (const key in doc)`: an object's
fields, an array's indexed elements, a boxed string's indexed characters, and
nothing for the remaining primitives (`for...in` over numbers, booleans,
`null` or `undefined` performs no iterations). -/
def forInPairs : Value → List (String × Value)
  | .vObject fields => fields
  | .vArray es => enumPairs 0 es
  | .vString s => enumChars 0 s.data
  | _ => []

/-- A node of the discovered schema tree (`FieldSchema` in the source):
field name, observed type tags, and the optional sub-schema (`undefined`
in the source is modelled as `none`). -/
inductive FieldSchema : Type where
  | mk : String → List String → Option (List FieldSchema) → FieldSchema

/-- The `name` field of a schema node. -/
def FieldSchema.name : FieldSchema → String
  | .mk n _ _ => n

/-- The `types` field of a schema node. -/
def FieldSchema.types : FieldSchema → List String
  | .mk _ t _ => t

/-- The `subFields` field of a schema node. -/
def FieldSchema.subFields : FieldSchema → Option (List FieldSchema)
  | .mk _ _ s => s

mutual
/-- Termination measure on values for the schema derivation recursion. -/
def vmeasure : Value → Nat
  | .vObject fields => 3 + pairsWeight fields
  | .vArray es => 3 + elemsWeight es
  | .vString s => 3 + s.length
  | _ => 3

/-- Sum of value measures over a pair list. -/
def pairsWeight : List (String × Value) → Nat
  | [] => 0
  | (_, v) :: rest => vmeasure v + 1 + pairsWeight rest

/-- Sum of value measures over a value list. -/
def elemsWeight : List Value → Nat
  | [] => 0
  | v :: rest => vmeasure v + 1 + elemsWeight rest
end

/-- Measure for `getSubFields`: only `"array"` / `"object"` classifications can
recurse, every other classification returns immediately. -/
def smeasure (value : Value) (fieldType : String) : Nat :=
  if fieldType = "array" ∨ fieldType = "object" then vmeasure value else 0

/-- Measure for the per-document key loop of `getSchemaFromArrayDocs`. -/
def pmeasure : List (String × Value) → Nat
  | [] => 0
  | (_, v) :: rest => smeasure v (getFieldType v) + 1 + pmeasure rest

/-- Measure for `getSchemaFromArrayDocs`. -/
def fmeasure : List Value → Nat
  | [] => 0
  | d :: rest => pmeasure (forInPairs d) + 1 + fmeasure rest

theorem smeasure_le (v : Value) (ft : String) : smeasure v ft ≤ vmeasure v := by
  unfold smeasure
  split <;> omega

theorem pmeasure_le_pairsWeight (l : List (String × Value)) : pmeasure l ≤ pairsWeight l := by
  induction l with
  | nil => simp [pmeasure, pairsWeight]
  | cons p rest ih =>
    obtain ⟨k, v⟩ := p
    have h := smeasure_le v (getFieldType v)
    simp only [pmeasure, pairsWeight]
    omega

theorem pmeasure_enumPairs_le (es : List Value) : ∀ i, pmeasure (enumPairs i es) ≤ elemsWeight es := by
  induction es with
  | nil => intro i; simp [enumPairs, pmeasure, elemsWeight]
  | cons v rest ih =>
    intro i
    have h1 := smeasure_le v (getFieldType v)
    have h2 := ih (i + 1)
    simp only [enumPairs, pmeasure, elemsWeight]
    omega

theorem pmeasure_enumChars (cs : List Char) : ∀ i, pmeasure (enumChars i cs) = cs.length := by
  induction cs with
  | nil => intro i; simp [enumChars, pmeasure]
  | cons c rest ih =>
    intro i
    have hs : smeasure (Value.vString (String.mk [c])) (getFieldType (Value.vString (String.mk [c]))) = 0 := by
      simp [smeasure, getFieldType, isJsArray, typeofTag]
    simp only [enumChars, pmeasure, List.length_cons, ih (i + 1), hs]
    omega

theorem pmeasure_forInPairs_le (v : Value) : pmeasure (forInPairs v) + 2 ≤ vmeasure v := by
  cases v with
  | vObject fields =>
    have h1 := pmeasure_le_pairsWeight fields
    simp only [forInPairs, vmeasure]
    omega
  | vArray es =>
    have h1 := pmeasure_enumPairs_le es 0
    simp only [forInPairs, vmeasure]
    omega
  | vString s =>
    have h1 := pmeasure_enumChars s.data 0
    simp only [forInPairs, vmeasure, String.length]
    omega
  | vNumber n => simp [forInPairs, pmeasure, vmeasure]
  | vBool b => simp [forInPairs, pmeasure, vmeasure]
  | vNull => simp [forInPairs, pmeasure, vmeasure]
  | vUndefined => simp [forInPairs, pmeasure, vmeasure]

theorem fmeasure_le_elemsWeight (l : List Value) : fmeasure l ≤ elemsWeight l := by
  induction l with
  | nil => simp [fmeasure, elemsWeight]
  | cons d rest ih =>
    have h1 := pmeasure_forInPairs_le d
    simp only [fmeasure, elemsWeight]
    omega

mutual
/-- `getSubFields` from the source: for an `"array"`-typed nonempty value,
inspect the first element; if it is composite
(`Array.isArray(firstElement) || typeof firstElement === "object"`), derive
sub-fields from the entire array at `depth + 1`; an `"object"`-typed value is
derived as a one-element document list at `depth + 1`; all other
classifications yield no sub-fields. -/
def getSubFields (value : Value) (fieldType : String) (depth : Nat) :
    Option (List FieldSchema) :=
  if fieldType = "array" then
    match value with
    | .vArray (e :: es) =>
      if isJsArray e || (typeofTag e == "object") then
        some (getSchemaFromArrayDocs (e :: es) (depth + 1))
      else none
    | _ => none
  else if fieldType = "object" then
    some (getSchemaFromArrayDocs [value] (depth + 1))
  else none
termination_by smeasure value fieldType
decreasing_by
  · have h1 := fmeasure_le_elemsWeight (e :: es)
    simp_all only [smeasure, vmeasure]
    split
    · omega
    · simp_all
  · have h1 := pmeasure_forInPairs_le value
    simp_all only [smeasure, fmeasure, pmeasure]
    split
    · omega
    · simp_all

/-- `getSchemaFromArrayDocs` from the source: for each document in the list,
iterate its own enumerable keys, classify every value, and emit one schema
node per key with recursively derived sub-fields. -/
def getSchemaFromArrayDocs (arrayDocs : List Value) (depth : Nat) : List FieldSchema :=
  match arrayDocs with
  | [] => []
  | doc :: rest => docFields (forInPairs doc) depth ++ getSchemaFromArrayDocs rest depth
termination_by fmeasure arrayDocs
decreasing_by
  · simp only [fmeasure]; omega
  · simp only [fmeasure]; omega

/-- The inner `for (const key in doc)` loop of `getSchemaFromArrayDocs`. -/
def docFields (pairs : List (String × Value)) (depth : Nat) : List FieldSchema :=
  match pairs with
  | [] => []
  | (key, value) :: rest =>
    FieldSchema.mk key [getFieldType value] (getSubFields value (getFieldType value) depth)
      :: docFields rest depth
termination_by pmeasure pairs
decreasing_by
  · simp only [pmeasure]; omega
  · simp only [pmeasure]; omega
end

/-- Decimal rendering of array/string indices used by `for...in`. -/
theorem natKeyZero : toString (0 : Nat) = "0" := rfl

/-- Decimal rendering of index 1. -/
theorem natKeyOne : toString (1 : Nat) = "1" := rfl

/-- Modelled from the spec: one `$addToSet` step of the MongoDB `$group` stage —
record type tag `t` for key `k`, keeping the key's already-collected distinct
tags and appending `t` only if it is new; unseen keys are appended at the end. -/
def upsert (acc : List (String × List String)) (k : String) (t : String) :
    List (String × List String) :=
  match acc with
  | [] => [(k, [t])]
  | (k', ts) :: rest =>
    if k' = k then (k', if ts.contains t then ts else ts ++ [t]) :: rest
    else (k', ts) :: upsert rest k t

/-- Modelled from the spec: the aggregation pipeline sent by `getSchema`
(`$objectToArray '$$ROOT'`, `$unwind`, `$group` by key with `$addToSet` of the
value's type) is external database behaviour; per §6 of the spec it is computed
application-side as a one-pass group-by over all key/value pairs of the
collection, collecting the distinct per-value type labels of each key. -/
def aggregateKeyTypes (coll : List Doc) : List (String × List String) :=
  coll.flatten.foldl (fun acc kv => upsert acc kv.1 (getFieldType kv.2)) []

/-- Modelled from the spec: the `$project {subDoc: '$field'}` stage — extract
the named top-level field from a document, `none` when the field is missing. -/
def projectField (doc : Doc) (field : String) : Option Value :=
  (doc.find? (fun p => p.1 == field)).map (fun p => p.2)

/-- BSON type test used by `$match {subDoc: {$type: 'object'}}`: a BSON
object is a document — arrays and null have their own BSON types. -/
def bsonIsObject : Value → Bool
  | .vObject _ => true
  | _ => false

/-- Modelled from the spec: the qualifying sub-documents of
`getSchemaFromSubDocs` — the named field projected from every document of the
collection, filtered to object-typed instances, in collection order. -/
def qualifyingSubDocs (coll : List Doc) (field : String) : List Value :=
  (coll.filterMap (fun doc => projectField doc field)).filter bsonIsObject

/-- The accumulation loop of `getSchemaFromSubDocs`: each qualifying
sub-document is independently derived and the results concatenated. -/
def subDocsLoop (depth : Nat) : List Value → List FieldSchema
  | [] => []
  | v :: rest => getSchemaFromArrayDocs [v] depth ++ subDocsLoop depth rest

/-- `getSchemaFromSubDocs` from the source: sample the object-typed values of
the named field across the collection and concatenate their per-document
schemas without de-duplication. -/
def getSchemaFromSubDocs (coll : List Doc) (field : String) (depth : Nat) :
    List FieldSchema :=
  subDocsLoop depth (qualifyingSubDocs coll field)

/-- `getSchema` from the source: run the distinct-type-per-key aggregation,
collapse each key's observed type set to `"object"` when it contains
`"object"` and to its first member otherwise, and populate `subFields` by
sub-document sampling exactly for `"object"`-classified fields. -/
def getSchema (coll : List Doc) (depth : Nat) : List FieldSchema :=
  (aggregateKeyTypes coll).map (fun field =>
    let fieldType := if field.2.contains "object" then "object" else field.2.headD "undefined"
    let subFields :=
      if fieldType = "object" then some (getSchemaFromSubDocs coll field.1 (depth + 1))
      else none
    FieldSchema.mk field.1 [fieldType] subFields)

/-- The per-collection loop of `generateSchemaForAllCollections`: discovery
results arrive from an oracle that may fail (a rejected promise); the first
failure aborts the whole loop. -/
def generateLoop (g : String → Except String (List FieldSchema)) :
    List String → Except String (List (String × List FieldSchema))
  | [] => .ok []
  | c :: rest =>
    match g c with
    | .error e => .error e
    | .ok s =>
      match generateLoop g rest with
      | .error e => .error e
      | .ok restS => .ok ((c, s) :: restS)

/-- `generateSchemaForAllCollections` from the source, with the database
modelled as two oracles: listing the collections and running per-collection
discovery, either of which may fail; any failure propagates and no schema is
returned. -/
def generateSchemaForAllCollections
    (listCollectionsResult : Except String (List String))
    (g : String → Except String (List FieldSchema)) :
    Except String (List (String × List FieldSchema)) :=
  match listCollectionsResult with
  | .error e => .error e
  | .ok collections => generateLoop g collections

mutual
/-- Termination measure on a schema node for the flattening recursion. -/
def fsWeight : FieldSchema → Nat
  | .mk _ _ none => 1
  | .mk _ _ (some subs) => 1 + forestWeight subs

/-- Termination measure on a list of schema nodes. -/
def forestWeight : List FieldSchema → Nat
  | [] => 0
  | f :: rest => fsWeight f + 1 + forestWeight rest
end

theorem forestWeight_subFields_lt (f : FieldSchema) (subs : List FieldSchema)
    (h : f.subFields = some subs) : forestWeight subs < fsWeight f := by
  cases f with
  | mk n t o =>
    cases o with
    | none => simp [FieldSchema.subFields] at h
    | some s =>
      simp [FieldSchema.subFields] at h
      subst h
      simp [fsWeight]

theorem fsWeight_pos (f : FieldSchema) : 0 < fsWeight f := by
  cases f with
  | mk n t o => cases o <;> simp [fsWeight]

theorem forestWeight_cons_rest (f : FieldSchema) (rest : List FieldSchema) :
    forestWeight rest < forestWeight (f :: rest) := by
  have h := fsWeight_pos f
  simp only [forestWeight]
  omega

theorem forestWeight_mk_some (nm : String) (tys : List String)
    (subs rest : List FieldSchema) :
    forestWeight subs < forestWeight (FieldSchema.mk nm tys (some subs) :: rest) := by
  simp only [forestWeight, fsWeight]
  omega

/-- Character-list prefix test, the base of the substring test. -/
def charsStartWith : List Char → List Char → Bool
  | _, [] => true
  | [], _ :: _ => false
  | c :: cs, p :: ps => c == p && charsStartWith cs ps

/-- Character-list substring test: the pattern occurs at some position. -/
def charsContain : List Char → List Char → Bool
  | [], pat => pat.isEmpty
  | c :: cs, pat => charsStartWith (c :: cs) pat || charsContain cs pat

/-- JavaScript `String.prototype.includes`: substring containment. -/
def strIncludes (s pat : String) : Bool :=
  charsContain s.data pat.data

/-- The exclusion test of `flattenFields`:
`filteredFields.some(filteredField => fieldName.includes(filteredField))`. -/
def pathMatches (filteredFields : List String) (fieldName : String) : Bool :=
  filteredFields.any (fun filteredField => strIncludes fieldName filteredField)

/-- The dotted path of a field under a parent path:
`parentField ? parentField + "." + field.name : field.name` (the empty parent
string is falsy). -/
def joinPath (parentField name : String) : String :=
  if parentField = "" then name else parentField ++ "." ++ name

/-- JavaScript object property write `result[fieldName] = v`: an existing key
keeps its position and gets the new value, a new key is appended. -/
def objInsert (m : List (String × String)) (k v : String) : List (String × String) :=
  if m.any (fun p => p.1 == k) then m.map (fun p => if p.1 == k then (k, v) else p)
  else m ++ [(k, v)]

/-- `Object.assign(target, source)`: write every key of `source` into
`target` in order. -/
def objAssign (target source : List (String × String)) : List (String × String) :=
  source.foldl (fun acc kv => objInsert acc kv.1 kv.2) target

/-- The recursive `flattenFields` closure from `flattenSchema`, with the
`result` object made explicit as an accumulator: each field whose dotted path
is not excluded writes `path -> types.join()` and then merges the flattening
of its sub-fields (computed with a fresh empty result object); an excluded
field writes nothing and its sub-fields are not visited. -/
def flattenLoop (filteredFields : List String) (fields : List FieldSchema)
    (parentField : String) (result : List (String × String)) :
    List (String × String) :=
  match fields with
  | [] => result
  | FieldSchema.mk nm tys (some subs) :: rest =>
    let fieldName := joinPath parentField nm
    let nextResult :=
      if pathMatches filteredFields fieldName then result
      else
        objAssign (objInsert result fieldName (String.intercalate "," tys))
          (flattenLoop filteredFields subs fieldName [])
    flattenLoop filteredFields rest parentField nextResult
  | FieldSchema.mk nm tys none :: rest =>
    let fieldName := joinPath parentField nm
    let nextResult :=
      if pathMatches filteredFields fieldName then result
      else objInsert result fieldName (String.intercalate "," tys)
    flattenLoop filteredFields rest parentField nextResult
termination_by forestWeight fields
decreasing_by
  all_goals first
    | exact forestWeight_cons_rest _ _
    | exact forestWeight_mk_some _ _ _ _

/-- `flattenFields(fields, parentField)` from the source: the flattening loop
started with a fresh empty result object. -/
def flattenFields (filteredFields : List String) (fields : List FieldSchema)
    (parentField : String) : List (String × String) :=
  flattenLoop filteredFields fields parentField []

/-- `flattenSchema` from the source: flatten each collection's field list
independently, starting from the empty dotted path. -/
def flattenSchema (filteredFields : List String)
    (schema : List (String × List FieldSchema)) :
    List (String × List (String × String)) :=
  schema.map (fun c => (c.1, flattenFields filteredFields c.2 ""))

/-- The dotted paths of all nodes of a schema forest (one path per node, in
depth-first traversal order), used to state the flattening claims. -/
def treePaths (fields : List FieldSchema) (parentField : String) : List String :=
  match fields with
  | [] => []
  | FieldSchema.mk nm _ (some subs) :: rest =>
    (joinPath parentField nm :: treePaths subs (joinPath parentField nm)) ++
      treePaths rest parentField
  | FieldSchema.mk nm _ none :: rest =>
    joinPath parentField nm :: treePaths rest parentField
termination_by forestWeight fields
decreasing_by
  all_goals first
    | exact forestWeight_cons_rest _ _
    | exact forestWeight_mk_some _ _ _ _

/-- The number of nodes of a schema forest (leaves and internal nodes). -/
def nodeCount (fields : List FieldSchema) : Nat :=
  match fields with
  | [] => 0
  | FieldSchema.mk _ _ (some subs) :: rest => 1 + nodeCount subs + nodeCount rest
  | FieldSchema.mk _ _ none :: rest => 1 + nodeCount rest
termination_by forestWeight fields
decreasing_by
  all_goals first
    | exact forestWeight_cons_rest _ _
    | exact forestWeight_mk_some _ _ _ _

/-- The class options (`SchemaExtractionTool.Options`): both fields are
optional in the TypeScript type; the logger is identified by an opaque name. -/
inductive Options : Type where
  | mk : Option (List String) → Option String → Options

/-- The `filteredFields` option. -/
def Options.filteredFields : Options → Option (List String)
  | .mk ff _ => ff

/-- The `logger` option. -/
def Options.logger : Options → Option String
  | .mk _ lg => lg

/-- The static `defaultOptions` object in its initial state. -/
def defaultOptions : Options :=
  Options.mk (some [".buffer", "__v"]) (some "winston")

/-- `Object.assign(target, source)` on options objects: a property present on
the source overwrites the target's, an absent property leaves it unchanged. -/
def assignOptions (target source : Options) : Options :=
  Options.mk
    (match source.filteredFields with
     | some ff => some ff
     | none => target.filteredFields)
    (match source.logger with
     | some lg => some lg
     | none => target.logger)

/-- `connect` from the source, as a function of the current value of the
static `defaultOptions` object: `Object.assign(SchemaExtractionTool.defaultOptions,
options)` merges the caller's options into the static object itself and the
merged object becomes the instance options.  The first component is the static
object's value after the call (mutated even when the client connection fails);
the second is the construction result, which fails when `mongoClient.connect()`
rejects. -/
def connect (staticDefaults : Options) (options : Option Options)
    (clientOk : Bool) : Options × Except String Options :=
  let instanceOptions :=
    match options with
    | some o => assignOptions staticDefaults o
    | none => staticDefaults
  (instanceOptions, if clientOk then .ok instanceOptions else .error "connect failed")

/-- The flattening loop with the source's `this.options.filteredFields!`
non-null assertion made explicit: processing any field first reads the
configured `filteredFields`, and an absent (undefined) value is a runtime
`TypeError`; with a configured value the loop proceeds as `flattenLoop`. -/
def flattenLoopChecked (ffOpt : Option (List String)) (fields : List FieldSchema)
    (parentField : String) (result : List (String × String)) :
    Except String (List (String × String)) :=
  match fields with
  | [] => .ok result
  | FieldSchema.mk nm tys (some subs) :: rest =>
    match ffOpt with
    | none => .error "TypeError: filteredFields is undefined"
    | some filteredFields =>
      let fieldName := joinPath parentField nm
      if pathMatches filteredFields fieldName then
        flattenLoopChecked ffOpt rest parentField result
      else
        match flattenLoopChecked ffOpt subs fieldName [] with
        | .error e => .error e
        | .ok subResult =>
          flattenLoopChecked ffOpt rest parentField
            (objAssign (objInsert result fieldName (String.intercalate "," tys)) subResult)
  | FieldSchema.mk nm tys none :: rest =>
    match ffOpt with
    | none => .error "TypeError: filteredFields is undefined"
    | some filteredFields =>
      let fieldName := joinPath parentField nm
      if pathMatches filteredFields fieldName then
        flattenLoopChecked ffOpt rest parentField result
      else
        flattenLoopChecked ffOpt rest parentField
          (objInsert result fieldName (String.intercalate "," tys))
termination_by forestWeight fields
decreasing_by
  all_goals first
    | exact forestWeight_cons_rest _ _
    | exact forestWeight_mk_some _ _ _ _

/-- `flattenSchema` with the options access made explicit: per collection the
flattening runs under the configured options. -/
def flattenSchemaChecked (opts : Options)
    (schema : List (String × List FieldSchema)) :
    Except String (List (String × List (String × String))) :=
  match schema with
  | [] => .ok []
  | c :: rest =>
    match flattenLoopChecked opts.filteredFields c.2 "" [] with
    | .error e => .error e
    | .ok m =>
      match flattenSchemaChecked opts rest with
      | .error e => .error e
      | .ok restM => .ok ((c.1, m) :: restM)

theorem getFieldType_vArray (l : List Value) : getFieldType (Value.vArray l) = "array" := by
  simp [getFieldType, isJsArray]

/-- C3: for an array-typed field value, sub-fields are derived from the whole
array at depth + 1 exactly when the first element is composite; an empty array
or a primitive first element yields no sub-fields; on `[{a:1}, "x", "y"]` the
derivation visits all three elements, the first contributing an `"a"` field and
the second and third contributing index entries without sub-fields of their
own. -/
theorem arrayFirstElementPolicy :
    (∀ l, getFieldType (Value.vArray l) = "array") ∧
    (∀ e es depth, (isJsArray e || (typeofTag e == "object")) = true →
      getSubFields (Value.vArray (e :: es)) "array" depth =
        some (getSchemaFromArrayDocs (e :: es) (depth + 1))) ∧
    (∀ e es depth, (isJsArray e || (typeofTag e == "object")) = false →
      getSubFields (Value.vArray (e :: es)) "array" depth = none) ∧
    (∀ depth, getSubFields (Value.vArray []) "array" depth = none) ∧
    (getSubFields
        (Value.vArray [Value.vObject [("a", Value.vNumber 1)], Value.vString "x", Value.vString "y"])
        "array" 0 =
      some [FieldSchema.mk "a" ["number"] none, FieldSchema.mk "0" ["string"] none,
            FieldSchema.mk "0" ["string"] none]) := by
  refine ⟨fun l => getFieldType_vArray l, ?_, ?_, ?_, ?_⟩
  · intro e es depth h
    simp [getSubFields, h]
  · intro e es depth h
    simp [getSubFields, h]
  · intro depth
    simp [getSubFields]
  · simp [getSubFields, getSchemaFromArrayDocs, docFields, forInPairs, enumPairs, enumChars,
      getFieldType, isJsArray, typeofTag, natKeyZero]

/-- Witness for C3: the composite-first-element branch applied at a concrete
one-element array of one object. -/
theorem arrayFirstElementPolicy_witness :
    (isJsArray (Value.vObject []) || (typeofTag (Value.vObject []) == "object")) = true ∧
    getSubFields (Value.vArray [Value.vObject []]) "array" 0 =
      some (getSchemaFromArrayDocs [Value.vObject []] 1) :=
  ⟨by decide, arrayFirstElementPolicy.2.1 (Value.vObject []) [] 0 (by decide)⟩

/-- C8: `generateSchemaForAllCollections` is all-or-nothing — a listing
failure fails the whole call with that error; if any listed collection's
discovery fails, the whole call fails; and when the first `k - 1` collections
succeed and collection `k` fails, the call returns exactly collection `k`'s
error, discarding the already-computed results. -/
theorem generateSchemaAllOrNothing :
    (∀ (g : String → Except String (List FieldSchema)) (e : String),
      generateSchemaForAllCollections (.error e) g = .error e) ∧
    (∀ (g : String → Except String (List FieldSchema)) (cs : List String) (c : String) (e : String),
      c ∈ cs → g c = .error e →
      ∃ e2, generateSchemaForAllCollections (.ok cs) g = .error e2) ∧
    (∀ (g : String → Except String (List FieldSchema)) (pre post : List String) (c : String)
        (e : String),
      (∀ p ∈ pre, ∃ s, g p = .ok s) → g c = .error e →
      generateSchemaForAllCollections (.ok (pre ++ c :: post)) g = .error e) := by
  refine ⟨fun g e => rfl, ?_, ?_⟩
  · intro g cs c e hmem herr
    simp only [generateSchemaForAllCollections]
    induction cs with
    | nil => simp at hmem
    | cons c0 rest ih =>
      rcases List.mem_cons.mp hmem with hc | hc
      · subst hc
        exact ⟨e, by simp [generateLoop, herr]⟩
      · obtain ⟨e2, h2⟩ := ih hc
        simp only [generateLoop]
        cases hg : g c0 with
        | error e0 => exact ⟨e0, rfl⟩
        | ok s => exact ⟨e2, by simp [h2]⟩
  · intro g pre post c e hpre herr
    simp only [generateSchemaForAllCollections]
    induction pre with
    | nil => simp [generateLoop, herr]
    | cons p rest ih =>
      obtain ⟨s, hs⟩ := hpre p (List.mem_cons_self p rest)
      have ihr := ih (fun q hq => hpre q (List.mem_cons_of_mem p hq))
      simp [generateLoop, hs, ihr]

/-- Witness for C8: a two-collection database whose second collection's
discovery fails returns exactly that error. -/
theorem generateSchemaAllOrNothing_witness :
    (∀ p ∈ ["ok1"], ∃ s, (fun c => if c = "ok1" then Except.ok ([] : List FieldSchema) else Except.error "boom") p =
        Except.ok s) ∧
    (fun c => if c = "ok1" then Except.ok ([] : List FieldSchema) else Except.error "boom") "bad" = Except.error "boom" ∧
    generateSchemaForAllCollections (.ok (["ok1"] ++ "bad" :: []))
      (fun c => if c = "ok1" then Except.ok ([] : List FieldSchema) else Except.error "boom") = .error "boom" := by
  refine ⟨?_, by rfl, ?_⟩
  · intro p hp
    simp at hp
    exact ⟨[], by simp [hp]⟩
  · exact generateSchemaAllOrNothing.2.2 _ ["ok1"] [] "bad" "boom"
      (by intro p hp; simp at hp; exact ⟨[], by simp [hp]⟩) (by simp)

/-- C10: `connect` merges the caller's options into the static
`defaultOptions` object itself; after a call passing custom `filteredFields`
the static object carries those values (whether or not the client connection
succeeded) and a later `connect` without options hands the mutated static
object to the new instance. -/
theorem connectMutatesDefaults (st : Options) (ff : List String) (lg : Option String)
    (ok1 ok2 : Bool) :
    ((connect st (some (Options.mk (some ff) lg)) ok1).1).filteredFields = some ff ∧
    ((connect ((connect st (some (Options.mk (some ff) lg)) ok1).1) none ok2).1).filteredFields =
      some ff ∧
    (connect ((connect st (some (Options.mk (some ff) lg)) ok1).1) none true).2 =
      Except.ok ((connect st (some (Options.mk (some ff) lg)) ok1).1) := by
  refine ⟨?_, ?_, ?_⟩ <;>
    simp [connect, assignOptions, Options.filteredFields, Options.logger]

theorem flattenLoopChecked_eq_ok (n : Nat) :
    ∀ (fields : List FieldSchema), forestWeight fields ≤ n →
    ∀ (ff : List String) (parent : String) (acc : List (String × String)),
      flattenLoopChecked (some ff) fields parent acc =
        Except.ok (flattenLoop ff fields parent acc) := by
  induction n with
  | zero =>
    intro fields hw ff parent acc
    cases fields with
    | nil => simp [flattenLoopChecked, flattenLoop]
    | cons field rest =>
      exfalso
      have h1 := fsWeight_pos field
      simp only [forestWeight] at hw
      omega
  | succ n ih =>
    intro fields hw ff parent acc
    cases fields with
    | nil => simp [flattenLoopChecked, flattenLoop]
    | cons field rest =>
      have h1 := fsWeight_pos field
      simp only [forestWeight] at hw
      have hrest : forestWeight rest ≤ n := by omega
      obtain ⟨nm, tys, osub⟩ := field
      cases osub with
      | none =>
        simp only [flattenLoopChecked, flattenLoop]
        by_cases hp : pathMatches ff (joinPath parent nm) = true
        · simp only [hp, if_true]
          exact ih rest hrest ff parent acc
        · simp only [Bool.not_eq_true] at hp
          simp only [hp, Bool.false_eq_true, if_false]
          exact ih rest hrest ff parent _
      | some subs =>
        have hsubw : forestWeight subs ≤ n := by
          simp only [fsWeight] at h1 hw
          omega
        simp only [flattenLoopChecked, flattenLoop]
        by_cases hp : pathMatches ff (joinPath parent nm) = true
        · simp only [hp, if_true]
          exact ih rest hrest ff parent acc
        · simp only [Bool.not_eq_true] at hp
          simp only [hp, Bool.false_eq_true, if_false]
          rw [ih subs hsubw ff (joinPath parent nm) []]
          exact ih rest hrest ff parent _

/-- C9: `flattenSchema` is total and pure — with a configured `filteredFields`
list the options-checked flattening never fails, and its result is exactly the
pure function of the input schema and the configured list (the schema itself
is never modified: the embedding is functional). -/
theorem flattenSchemaPureTotal (opts : Options) (ff : List String)
    (schema : List (String × List FieldSchema)) (hff : opts.filteredFields = some ff) :
    flattenSchemaChecked opts schema = Except.ok (flattenSchema ff schema) := by
  induction schema with
  | nil => simp [flattenSchemaChecked, flattenSchema]
  | cons c rest ih =>
    simp only [flattenSchemaChecked, hff]
    rw [flattenLoopChecked_eq_ok (forestWeight c.2) c.2 le_rfl ff "" []]
    rw [ih]
    simp [flattenSchema, flattenFields]

/-- Witness for C9: the default options flatten a concrete one-collection
schema without failure. -/
theorem flattenSchemaPureTotal_witness :
    defaultOptions.filteredFields = some [".buffer", "__v"] ∧
    flattenSchemaChecked defaultOptions [("users", [FieldSchema.mk "name" ["string"] none])] =
      Except.ok (flattenSchema [".buffer", "__v"]
        [("users", [FieldSchema.mk "name" ["string"] none])]) :=
  ⟨rfl, flattenSchemaPureTotal defaultOptions [".buffer", "__v"]
    [("users", [FieldSchema.mk "name" ["string"] none])] rfl⟩

/-- Number of schema nodes in a forest carrying a given field name. -/
def countNamed (fs : List FieldSchema) (nm : String) : Nat :=
  fs.countP (fun f => f.name == nm)

/-- Number of enumerable keys of a value equal to a given field name. -/
def keyCount (v : Value) (nm : String) : Nat :=
  (forInPairs v).countP (fun p => p.1 == nm)

theorem countNamed_docFields (pairs : List (String × Value)) (depth : Nat) (nm : String) :
    countNamed (docFields pairs depth) nm = pairs.countP (fun p => p.1 == nm) := by
  induction pairs with
  | nil => simp [docFields, countNamed]
  | cons p rest ih =>
    obtain ⟨k, v⟩ := p
    simp only [docFields, countNamed, List.countP_cons] at *
    rw [ih]
    simp [FieldSchema.name]

theorem getSchemaFromArrayDocs_single (v : Value) (d : Nat) :
    getSchemaFromArrayDocs [v] d = docFields (forInPairs v) d := by
  simp [getSchemaFromArrayDocs]

theorem countNamed_subDocsLoop (vs : List Value) (depth : Nat) (nm : String) :
    countNamed (subDocsLoop depth vs) nm = (vs.map (fun v => keyCount v nm)).sum := by
  induction vs with
  | nil => simp [subDocsLoop, countNamed]
  | cons v rest ih =>
    simp only [subDocsLoop, countNamed, List.countP_append, List.map_cons, List.sum_cons] at *
    rw [ih, getSchemaFromArrayDocs_single]
    have h := countNamed_docFields (forInPairs v) depth nm
    simp only [countNamed] at h
    simp [h, keyCount]

/-- C7: sub-document sampling does not de-duplicate — when every qualifying
sub-document of a field carries the name `nm` exactly once, the sequence
returned by `getSchemaFromSubDocs` contains exactly one `nm` node per
qualifying sub-document, i.e. as many as there are qualifying sub-documents. -/
theorem subDocSamplingNoDedup (coll : List Doc) (field : String) (depth : Nat) (nm : String)
    (h : ∀ v ∈ qualifyingSubDocs coll field, keyCount v nm = 1) :
    countNamed (getSchemaFromSubDocs coll field depth) nm =
      (qualifyingSubDocs coll field).length := by
  unfold getSchemaFromSubDocs
  rw [countNamed_subDocsLoop]
  have hgen : ∀ (vs : List Value), (∀ v ∈ vs, keyCount v nm = 1) →
      (vs.map (fun v => keyCount v nm)).sum = vs.length := by
    intro vs
    induction vs with
    | nil => intro _; simp
    | cons v rest ih =>
      intro hall
      simp only [List.map_cons, List.sum_cons, List.length_cons,
        hall v (List.mem_cons_self v rest), ih (fun u hu => hall u (List.mem_cons_of_mem v hu))]
      omega
  exact hgen _ h

/-- Witness for C7: a collection with two documents, both holding an
object-typed field `"s"` containing a field `"f"`, yields two qualifying
sub-documents and exactly two `"f"` nodes in the sampled sequence. -/
theorem subDocSamplingNoDedup_witness :
    (∀ v ∈ qualifyingSubDocs
        [[("s", Value.vObject [("f", Value.vNumber 1)])],
         [("s", Value.vObject [("f", Value.vString "z")])]] "s", keyCount v "f" = 1) ∧
    (qualifyingSubDocs
        [[("s", Value.vObject [("f", Value.vNumber 1)])],
         [("s", Value.vObject [("f", Value.vString "z")])]] "s").length = 2 ∧
    countNamed (getSchemaFromSubDocs
        [[("s", Value.vObject [("f", Value.vNumber 1)])],
         [("s", Value.vObject [("f", Value.vString "z")])]] "s" 1) "f" = 2 := by
  refine ⟨by decide, by decide, ?_⟩
  have h := subDocSamplingNoDedup
    [[("s", Value.vObject [("f", Value.vNumber 1)])],
     [("s", Value.vObject [("f", Value.vString "z")])]] "s" 1 "f" (by decide)
  rw [h]
  decide

theorem contains_of_mem (l : List String) (a : String) (h : a ∈ l) : l.contains a = true := by
  simpa [List.contains] using List.elem_eq_true_of_mem h

theorem mem_keys_upsert (acc : List (String × List String)) (k t k' : String) :
    k' ∈ (upsert acc k t).map Prod.fst ↔ (k' ∈ acc.map Prod.fst ∨ k' = k) := by
  induction acc with
  | nil => simp [upsert]
  | cons p rest ih =>
    obtain ⟨k0, ts0⟩ := p
    by_cases h : k0 = k
    · subst h
      simp [upsert]
      tauto
    · simp [upsert, h, ih]
      tauto

theorem nodup_keys_upsert (acc : List (String × List String)) (k t : String)
    (h : (acc.map Prod.fst).Nodup) : ((upsert acc k t).map Prod.fst).Nodup := by
  induction acc with
  | nil => simp [upsert]
  | cons p rest ih =>
    obtain ⟨k0, ts0⟩ := p
    simp only [List.map_cons, List.nodup_cons] at h
    obtain ⟨hnot, hrest⟩ := h
    by_cases hk : k0 = k
    · subst hk
      simp only [upsert, eq_self_iff_true, if_true, List.map_cons, List.nodup_cons]
      exact ⟨hnot, hrest⟩
    · simp only [upsert, if_neg hk]
      simp only [List.map_cons, List.nodup_cons]
      refine ⟨?_, ih hrest⟩
      intro hmem
      rcases (mem_keys_upsert rest k t k0).mp hmem with h1 | h1
      · exact hnot h1
      · exact hk h1

theorem nodup_keys_aggregate (coll : List Doc) :
    ((aggregateKeyTypes coll).map Prod.fst).Nodup := by
  unfold aggregateKeyTypes
  have hgen : ∀ (pairs : List (String × Value)) (acc : List (String × List String)),
      (acc.map Prod.fst).Nodup →
      ((pairs.foldl (fun acc kv => upsert acc kv.1 (getFieldType kv.2)) acc).map Prod.fst).Nodup := by
    intro pairs
    induction pairs with
    | nil => intro acc h; simpa
    | cons kv rest ih =>
      intro acc h
      simp only [List.foldl_cons]
      exact ih _ (nodup_keys_upsert acc kv.1 (getFieldType kv.2) h)
  exact hgen _ [] (by simp)

theorem assoc_unique (l : List (String × List String)) (h : (l.map Prod.fst).Nodup)
    (k : String) (ts ts' : List String) (h1 : (k, ts) ∈ l) (h2 : (k, ts') ∈ l) : ts = ts' := by
  induction l with
  | nil => simp at h1
  | cons p rest ih =>
    simp only [List.map_cons, List.nodup_cons] at h
    obtain ⟨hnot, hrest⟩ := h
    rcases List.mem_cons.mp h1 with e1 | e1 <;> rcases List.mem_cons.mp h2 with e2 | e2
    · exact (Prod.ext_iff.mp (e1.trans e2.symm)).2
    · exfalso
      apply hnot
      rw [← e1]
      exact List.mem_map.mpr ⟨(k, ts'), e2, rfl⟩
    · exfalso
      apply hnot
      rw [← e2]
      exact List.mem_map.mpr ⟨(k, ts), e1, rfl⟩
    · exact ih hrest e1 e2

/-- C2: object wins ties — any top-level field of `getSchema` whose observed
distinct type set contains `"object"` is reported with types exactly
`["object"]`, whatever else the set contains. -/
theorem objectWinsTies (coll : List Doc) (depth : Nat) (f : FieldSchema) (ts : List String)
    (hf : f ∈ getSchema coll depth) (hts : (f.name, ts) ∈ aggregateKeyTypes coll)
    (hobj : "object" ∈ ts) : f.types = ["object"] := by
  unfold getSchema at hf
  rw [List.mem_map] at hf
  obtain ⟨kt, hkt, hfeq⟩ := hf
  subst hfeq
  simp only [FieldSchema.name] at hts
  have hts2 : ts = kt.2 := assoc_unique _ (nodup_keys_aggregate coll) kt.1 ts kt.2 hts hkt
  have hobj2 : "object" ∈ kt.2 := hts2 ▸ hobj
  simp [FieldSchema.types, hobj2]

/-- Witness for C2: a field observed both as an object and as a string is
reported as `["object"]`. -/
theorem objectWinsTies_witness :
    FieldSchema.mk "x" ["object"] (some []) ∈
      getSchema [[("x", Value.vObject [])], [("x", Value.vString "s")]] 0 ∧
    ("x", ["object", "string"]) ∈
      aggregateKeyTypes [[("x", Value.vObject [])], [("x", Value.vString "s")]] ∧
    "object" ∈ ["object", "string"] ∧
    (FieldSchema.mk "x" ["object"] (some [])).types = ["object"] := by
  refine ⟨?_, ?_, by simp, ?_⟩
  · simp [getSchema, aggregateKeyTypes, upsert, getFieldType, isJsArray, typeofTag,
      getSchemaFromSubDocs, qualifyingSubDocs, projectField, bsonIsObject, subDocsLoop,
      getSchemaFromArrayDocs, docFields, forInPairs]
  · simp [aggregateKeyTypes, upsert, getFieldType, isJsArray, typeofTag]
  · exact objectWinsTies [[("x", Value.vObject [])], [("x", Value.vString "s")]] 0
      (FieldSchema.mk "x" ["object"] (some [])) ["object", "string"]
      (by simp [getSchema, aggregateKeyTypes, upsert, getFieldType, isJsArray, typeofTag,
        getSchemaFromSubDocs, qualifyingSubDocs, projectField, bsonIsObject, subDocsLoop,
        getSchemaFromArrayDocs, docFields, forInPairs])
      (by simp [aggregateKeyTypes, upsert, getFieldType, isJsArray, typeofTag, FieldSchema.name])
      (by simp)

theorem joinSingleton (s : String) : String.intercalate "," [s] = s := rfl

/-- The two-document `"users"` collection of the spec's end-to-end scenario:
`{name:"Al", age:30}` and `{name:"Bo", address:{city:"NY"}}`. -/
def usersColl : List Doc :=
  [[("name", Value.vString "Al"), ("age", Value.vNumber 30)],
   [("name", Value.vString "Bo"), ("address", Value.vObject [("city", Value.vString "NY")])]]

/-- Counterexample for C1: with the default exclusion list, the flattened
`"users"` map of the end-to-end scenario is not the claimed three-entry map —
the object-typed parent `"address"` does appear as its own entry, mapped to
`"object"`. -/
theorem endToEndScenario_counterexample :
    (flattenFields [".buffer", "__v"] (getSchema usersColl 0) "").map Prod.fst ≠
      ["name", "age", "address.city"] ∧
    ("address", "object") ∈ flattenFields [".buffer", "__v"] (getSchema usersColl 0) "" := by
  have heval : getSchema usersColl 0 =
      [FieldSchema.mk "name" ["string"] none, FieldSchema.mk "age" ["number"] none,
       FieldSchema.mk "address" ["object"] (some [FieldSchema.mk "city" ["string"] none])] := by
    simp [usersColl, getSchema, aggregateKeyTypes, upsert, getFieldType, isJsArray, typeofTag,
      getSchemaFromSubDocs, qualifyingSubDocs, projectField, bsonIsObject, subDocsLoop,
      getSchemaFromArrayDocs, docFields, forInPairs, getSubFields]
  rw [heval]
  have hflat : flattenFields [".buffer", "__v"]
      [FieldSchema.mk "name" ["string"] none, FieldSchema.mk "age" ["number"] none,
       FieldSchema.mk "address" ["object"] (some [FieldSchema.mk "city" ["string"] none])] "" =
      [("name", "string"), ("age", "number"), ("address", "object"),
       ("address.city", "string")] := by
    simp [flattenFields, flattenLoop, joinPath, objInsert, objAssign, joinSingleton,
      (by decide : pathMatches [".buffer", "__v"] "name" = false),
      (by decide : pathMatches [".buffer", "__v"] "age" = false),
      (by decide : pathMatches [".buffer", "__v"] "address" = false),
      (by decide : pathMatches [".buffer", "__v"] "address.city" = false)]
  rw [hflat]
  refine ⟨by decide, by simp⟩

/-- C1 as amended: the end-to-end scenario's discovered schema is exactly the
claimed FullSchema, and flattening it with the default exclusion list yields
the claimed three entries plus an entry for the object-typed parent
`"address"`, mapped to `"object"`. -/
theorem endToEndScenario :
    getSchema usersColl 0 =
      [FieldSchema.mk "name" ["string"] none, FieldSchema.mk "age" ["number"] none,
       FieldSchema.mk "address" ["object"] (some [FieldSchema.mk "city" ["string"] none])] ∧
    flattenSchema [".buffer", "__v"] [("users", getSchema usersColl 0)] =
      [("users", [("name", "string"), ("age", "number"), ("address", "object"),
        ("address.city", "string")])] := by
  have heval : getSchema usersColl 0 =
      [FieldSchema.mk "name" ["string"] none, FieldSchema.mk "age" ["number"] none,
       FieldSchema.mk "address" ["object"] (some [FieldSchema.mk "city" ["string"] none])] := by
    simp [usersColl, getSchema, aggregateKeyTypes, upsert, getFieldType, isJsArray, typeofTag,
      getSchemaFromSubDocs, qualifyingSubDocs, projectField, bsonIsObject, subDocsLoop,
      getSchemaFromArrayDocs, docFields, forInPairs, getSubFields]
  refine ⟨heval, ?_⟩
  rw [heval]
  simp only [flattenSchema, List.map_cons, List.map_nil]
  simp [flattenFields, flattenLoop, joinPath, objInsert, objAssign, joinSingleton,
    (by decide : pathMatches [".buffer", "__v"] "name" = false),
    (by decide : pathMatches [".buffer", "__v"] "age" = false),
    (by decide : pathMatches [".buffer", "__v"] "address" = false),
    (by decide : pathMatches [".buffer", "__v"] "address.city" = false)]

theorem charsStartWith_append (pat : List Char) :
    ∀ (s t : List Char), charsStartWith s pat = true → charsStartWith (s ++ t) pat = true := by
  induction pat with
  | nil => intro s t _; cases s <;> simp [charsStartWith]
  | cons p ps ih =>
    intro s t h
    cases s with
    | nil => simp [charsStartWith] at h
    | cons c cs =>
      simp only [charsStartWith, Bool.and_eq_true] at h
      simp only [List.cons_append, charsStartWith, Bool.and_eq_true]
      exact ⟨h.1, ih cs t h.2⟩

theorem charsContain_nilpat (s : List Char) : charsContain s [] = true := by
  induction s with
  | nil => simp [charsContain]
  | cons c cs ih => simp [charsContain, charsStartWith]

theorem charsContain_append (s t pat : List Char) (h : charsContain s pat = true) :
    charsContain (s ++ t) pat = true := by
  induction s with
  | nil =>
    simp only [charsContain] at h
    have hp : pat = [] := by
      cases pat
      · rfl
      · simp [List.isEmpty] at h
    subst hp
    simp [charsContain_nilpat]
  | cons c cs ih =>
    simp only [charsContain, Bool.or_eq_true] at h
    simp only [List.cons_append, charsContain, Bool.or_eq_true]
    rcases h with h | h
    · exact Or.inl (by simpa [List.cons_append] using charsStartWith_append pat (c :: cs) t h)
    · exact Or.inr (ih h)

theorem strData_append (p t : String) : (p ++ t).data = p.data ++ t.data := by
  cases p
  cases t
  rfl

theorem strIncludes_append (p t g : String) (h : strIncludes p g = true) :
    strIncludes (p ++ t) g = true := by
  simp only [strIncludes, strData_append]
  exact charsContain_append _ _ _ h

theorem strIncludes_of_empty (g k : String) (h : strIncludes "" g = true) :
    strIncludes k g = true := by
  simp only [strIncludes] at h ⊢
  simp only [charsContain] at h
  have hg : g.data = [] := by
    cases hgd : g.data
    · rfl
    · rw [hgd] at h
      simp [List.isEmpty] at h
  rw [hg]
  exact charsContain_nilpat _

theorem strIncludes_joinPath (p0 nm g : String) (hg : strIncludes p0 g = true) :
    strIncludes (joinPath p0 nm) g = true := by
  unfold joinPath
  by_cases h0 : p0 = ""
  · rw [if_pos h0]
    subst h0
    exact strIncludes_of_empty g nm hg
  · rw [if_neg h0]
    exact strIncludes_append _ _ _ (strIncludes_append _ _ _ hg)

theorem strIncludes_treePaths (n : Nat) :
    ∀ (fields : List FieldSchema), forestWeight fields ≤ n →
    ∀ (p0 k g : String), k ∈ treePaths fields p0 → strIncludes p0 g = true →
      strIncludes k g = true := by
  induction n with
  | zero =>
    intro fields hw p0 k g hk _
    cases fields with
    | nil => simp [treePaths] at hk
    | cons f rest =>
      exfalso
      have h1 := fsWeight_pos f
      simp only [forestWeight] at hw
      omega
  | succ n ih =>
    intro fields hw p0 k g hk hg
    cases fields with
    | nil => simp [treePaths] at hk
    | cons f rest =>
      have h1 := fsWeight_pos f
      simp only [forestWeight] at hw
      have hrest : forestWeight rest ≤ n := by omega
      obtain ⟨nm, tys, osub⟩ := f
      cases osub with
      | none =>
        simp only [treePaths, List.mem_cons] at hk
        rcases hk with hk | hk
        · subst hk
          exact strIncludes_joinPath p0 nm g hg
        · exact ih rest hrest p0 k g hk hg
      | some subs =>
        have hsubw : forestWeight subs ≤ n := by
          simp only [fsWeight] at h1 hw
          omega
        simp only [treePaths, List.mem_append, List.mem_cons] at hk
        rcases hk with (hk | hk) | hk
        · subst hk
          exact strIncludes_joinPath p0 nm g hg
        · exact ih subs hsubw (joinPath p0 nm) k g hk (strIncludes_joinPath p0 nm g hg)
        · exact ih rest hrest p0 k g hk hg

theorem pathMatches_treePaths (ff : List String) (fields : List FieldSchema) (p0 k : String)
    (hk : k ∈ treePaths fields p0) (hm : pathMatches ff p0 = true) :
    pathMatches ff k = true := by
  simp only [pathMatches, List.any_eq_true] at hm ⊢
  obtain ⟨g, hgmem, hg⟩ := hm
  exact ⟨g, hgmem, strIncludes_treePaths (forestWeight fields) fields le_rfl p0 k g hk hg⟩

theorem keys_objInsert (m : List (String × String)) (k v : String) :
    (objInsert m k v).map Prod.fst =
      if m.any (fun p => p.1 == k) then m.map Prod.fst else m.map Prod.fst ++ [k] := by
  by_cases h : m.any (fun p => p.1 == k) = true
  · rw [if_pos h]
    unfold objInsert
    rw [if_pos h]
    rw [List.map_map]
    congr 1
    funext p
    simp only [Function.comp]
    split
    · rename_i hp
      exact (beq_iff_eq.mp hp).symm
    · rfl
  · rw [if_neg h]
    unfold objInsert
    rw [if_neg h]
    simp

theorem mem_keys_objInsert (m : List (String × String)) (k v k' : String) :
    k' ∈ (objInsert m k v).map Prod.fst ↔ (k' ∈ m.map Prod.fst ∨ k' = k) := by
  rw [keys_objInsert]
  by_cases h : m.any (fun p => p.1 == k) = true
  · rw [if_pos h]
    constructor
    · exact Or.inl
    · rintro (h1 | h1)
      · exact h1
      · subst h1
        simp only [List.any_eq_true] at h
        obtain ⟨p, hp, hpk⟩ := h
        exact List.mem_map.mpr ⟨p, hp, beq_iff_eq.mp hpk⟩
  · rw [if_neg h]
    simp [List.mem_append]

theorem nodup_keys_objInsert (m : List (String × String)) (k v : String)
    (h : (m.map Prod.fst).Nodup) : ((objInsert m k v).map Prod.fst).Nodup := by
  rw [keys_objInsert]
  by_cases ha : m.any (fun p => p.1 == k) = true
  · rw [if_pos ha]
    exact h
  · rw [if_neg ha]
    have hk : k ∉ m.map Prod.fst := by
      intro hkmem
      apply ha
      obtain ⟨p, hp, he⟩ := List.mem_map.mp hkmem
      exact List.any_eq_true.mpr ⟨p, hp, beq_iff_eq.mpr he⟩
    rw [List.nodup_append]
    refine ⟨h, by simp, ?_⟩
    intro a ha1 ha2
    simp only [List.mem_singleton] at ha2
    subst ha2
    exact hk ha1

theorem mem_keys_objAssign (src : List (String × String)) :
    ∀ (tgt : List (String × String)) (k' : String),
      k' ∈ (objAssign tgt src).map Prod.fst ↔
        (k' ∈ tgt.map Prod.fst ∨ k' ∈ src.map Prod.fst) := by
  induction src with
  | nil => intro tgt k'; simp [objAssign]
  | cons p rest ih =>
    intro tgt k'
    obtain ⟨k0, v0⟩ := p
    have hc : objAssign tgt ((k0, v0) :: rest) = objAssign (objInsert tgt k0 v0) rest := by
      simp [objAssign]
    rw [hc, ih, mem_keys_objInsert]
    simp only [List.map_cons, List.mem_cons]
    tauto

theorem nodup_keys_objAssign (src : List (String × String)) :
    ∀ (tgt : List (String × String)), (tgt.map Prod.fst).Nodup →
      ((objAssign tgt src).map Prod.fst).Nodup := by
  induction src with
  | nil => intro tgt h; simpa [objAssign]
  | cons p rest ih =>
    intro tgt h
    obtain ⟨k0, v0⟩ := p
    have hc : objAssign tgt ((k0, v0) :: rest) = objAssign (objInsert tgt k0 v0) rest := by
      simp [objAssign]
    rw [hc]
    exact ih _ (nodup_keys_objInsert tgt k0 v0 h)

theorem mem_keys_flattenLoop (n : Nat) :
    ∀ (fields : List FieldSchema), forestWeight fields ≤ n →
    ∀ (ff : List String) (parent : String) (acc : List (String × String)) (k : String),
      (k ∈ (flattenLoop ff fields parent acc).map Prod.fst ↔
        (k ∈ acc.map Prod.fst ∨ (k ∈ treePaths fields parent ∧ pathMatches ff k = false))) := by
  induction n with
  | zero =>
    intro fields hw ff parent acc k
    cases fields with
    | nil => simp [flattenLoop, treePaths]
    | cons f rest =>
      exfalso
      have h1 := fsWeight_pos f
      simp only [forestWeight] at hw
      omega
  | succ n ih =>
    intro fields hw ff parent acc k
    cases fields with
    | nil => simp [flattenLoop, treePaths]
    | cons f rest =>
      have h1 := fsWeight_pos f
      simp only [forestWeight] at hw
      have hrest : forestWeight rest ≤ n := by omega
      obtain ⟨nm, tys, osub⟩ := f
      cases osub with
      | none =>
        simp only [flattenLoop, treePaths]
        by_cases hp : pathMatches ff (joinPath parent nm) = true
        · simp only [hp, if_true]
          rw [ih rest hrest ff parent acc k]
          simp only [List.mem_cons]
          constructor
          · rintro (h2 | h2)
            · exact Or.inl h2
            · exact Or.inr ⟨Or.inr h2.1, h2.2⟩
          · rintro (h2 | ⟨h3 | h3, hok⟩)
            · exact Or.inl h2
            · subst h3
              rw [hp] at hok
              cases hok
            · exact Or.inr ⟨h3, hok⟩
        · simp only [Bool.not_eq_true] at hp
          simp only [hp, Bool.false_eq_true, if_false]
          rw [ih rest hrest ff parent _ k, mem_keys_objInsert]
          simp only [List.mem_cons]
          constructor
          · rintro ((h2 | h2) | h2)
            · exact Or.inl h2
            · subst h2
              exact Or.inr ⟨Or.inl rfl, hp⟩
            · exact Or.inr ⟨Or.inr h2.1, h2.2⟩
          · rintro (h2 | ⟨h3 | h3, hok⟩)
            · exact Or.inl (Or.inl h2)
            · subst h3
              exact Or.inl (Or.inr rfl)
            · exact Or.inr ⟨h3, hok⟩
      | some subs =>
        have hsubw : forestWeight subs ≤ n := by
          simp only [fsWeight] at h1 hw
          omega
        simp only [flattenLoop, treePaths]
        by_cases hp : pathMatches ff (joinPath parent nm) = true
        · simp only [hp, if_true]
          rw [ih rest hrest ff parent acc k]
          simp only [List.mem_append, List.mem_cons]
          constructor
          · rintro (h2 | h2)
            · exact Or.inl h2
            · exact Or.inr ⟨Or.inr h2.1, h2.2⟩
          · rintro (h2 | ⟨(h3 | h3) | h3, hok⟩)
            · exact Or.inl h2
            · subst h3
              rw [hp] at hok
              cases hok
            · have hk2 := pathMatches_treePaths ff subs (joinPath parent nm) k h3 hp
              rw [hk2] at hok
              cases hok
            · exact Or.inr ⟨h3, hok⟩
        · simp only [Bool.not_eq_true] at hp
          simp only [hp, Bool.false_eq_true, if_false]
          rw [ih rest hrest ff parent _ k, mem_keys_objAssign, mem_keys_objInsert,
            ih subs hsubw ff (joinPath parent nm) [] k]
          simp only [List.map_nil, List.not_mem_nil, false_or, List.mem_append, List.mem_cons]
          constructor
          · rintro (((h2 | h2) | h2) | h2)
            · exact Or.inl h2
            · subst h2
              exact Or.inr ⟨Or.inl (Or.inl rfl), hp⟩
            · exact Or.inr ⟨Or.inl (Or.inr h2.1), h2.2⟩
            · exact Or.inr ⟨Or.inr h2.1, h2.2⟩
          · rintro (h2 | ⟨(h3 | h3) | h3, hok⟩)
            · exact Or.inl (Or.inl (Or.inl h2))
            · subst h3
              exact Or.inl (Or.inl (Or.inr rfl))
            · exact Or.inl (Or.inr ⟨h3, hok⟩)
            · exact Or.inr ⟨h3, hok⟩

theorem nodup_keys_flattenLoop (n : Nat) :
    ∀ (fields : List FieldSchema), forestWeight fields ≤ n →
    ∀ (ff : List String) (parent : String) (acc : List (String × String)),
      (acc.map Prod.fst).Nodup → ((flattenLoop ff fields parent acc).map Prod.fst).Nodup := by
  induction n with
  | zero =>
    intro fields hw ff parent acc hacc
    cases fields with
    | nil => simpa [flattenLoop]
    | cons f rest =>
      exfalso
      have h1 := fsWeight_pos f
      simp only [forestWeight] at hw
      omega
  | succ n ih =>
    intro fields hw ff parent acc hacc
    cases fields with
    | nil => simpa [flattenLoop]
    | cons f rest =>
      have h1 := fsWeight_pos f
      simp only [forestWeight] at hw
      have hrest : forestWeight rest ≤ n := by omega
      obtain ⟨nm, tys, osub⟩ := f
      cases osub with
      | none =>
        simp only [flattenLoop]
        by_cases hp : pathMatches ff (joinPath parent nm) = true
        · simp only [hp, if_true]
          exact ih rest hrest ff parent acc hacc
        · simp only [Bool.not_eq_true] at hp
          simp only [hp, Bool.false_eq_true, if_false]
          exact ih rest hrest ff parent _ (nodup_keys_objInsert acc _ _ hacc)
      | some subs =>
        have hsubw : forestWeight subs ≤ n := by
          simp only [fsWeight] at h1 hw
          omega
        simp only [flattenLoop]
        by_cases hp : pathMatches ff (joinPath parent nm) = true
        · simp only [hp, if_true]
          exact ih rest hrest ff parent acc hacc
        · simp only [Bool.not_eq_true] at hp
          simp only [hp, Bool.false_eq_true, if_false]
          exact ih rest hrest ff parent _
            (nodup_keys_objAssign _ _ (nodup_keys_objInsert acc _ _ hacc))

/-- C4: exclusion is evaluated per dotted path — a key appears in the
flattened map exactly when some node carries that dotted path and the path
contains no configured substring (so nothing reachable only under an excluded
parent can ever appear, since its path extends the parent's and therefore also
matches); in particular, with `filteredFields = ["__v"]`, a tree holding a
`"__v"` field and a sibling `"name"` flattens to a map with the `"name"` entry
and without the `"__v"` entry. -/
theorem exclusionPerPath :
    (∀ (ff : List String) (fields : List FieldSchema) (k : String),
      k ∈ (flattenFields ff fields "").map Prod.fst ↔
        (k ∈ treePaths fields "" ∧ pathMatches ff k = false)) ∧
    ("root.name" ∈ (flattenFields ["__v"]
        [FieldSchema.mk "root" ["object"] (some
          [FieldSchema.mk "__v" ["number"] none, FieldSchema.mk "name" ["string"] none])]
        "").map Prod.fst) ∧
    ("root.__v" ∉ (flattenFields ["__v"]
        [FieldSchema.mk "root" ["object"] (some
          [FieldSchema.mk "__v" ["number"] none, FieldSchema.mk "name" ["string"] none])]
        "").map Prod.fst) := by
  have heval : flattenFields ["__v"]
      [FieldSchema.mk "root" ["object"] (some
        [FieldSchema.mk "__v" ["number"] none, FieldSchema.mk "name" ["string"] none])] "" =
      [("root", "object"), ("root.name", "string")] := by
    simp [flattenFields, flattenLoop, joinPath, objInsert, objAssign, joinSingleton,
      (by decide : pathMatches ["__v"] "root" = false),
      (by decide : pathMatches ["__v"] "root.__v" = true),
      (by decide : pathMatches ["__v"] "root.name" = false)]
  refine ⟨?_, ?_, ?_⟩
  · intro ff fields k
    unfold flattenFields
    rw [mem_keys_flattenLoop (forestWeight fields) fields le_rfl]
    simp
  · rw [heval]
    simp
  · rw [heval]
    simp

/-- Counterexample for C5: two sibling nodes sharing the dotted path `"a"`
flatten (with no exclusions) to a single entry, not one entry per node —
the later write overwrote the earlier one. -/
theorem flattenNodeCount_counterexample :
    (∀ p ∈ treePaths [FieldSchema.mk "a" ["string"] none, FieldSchema.mk "a" ["number"] none] "",
      pathMatches ([] : List String) p = false) ∧
    (flattenFields [] [FieldSchema.mk "a" ["string"] none, FieldSchema.mk "a" ["number"] none]
        "").length ≠
      nodeCount [FieldSchema.mk "a" ["string"] none, FieldSchema.mk "a" ["number"] none] ∧
    flattenFields [] [FieldSchema.mk "a" ["string"] none, FieldSchema.mk "a" ["number"] none] "" =
      [("a", "number")] := by
  have heval : flattenFields []
      [FieldSchema.mk "a" ["string"] none, FieldSchema.mk "a" ["number"] none] "" =
      [("a", "number")] := by
    simp [flattenFields, flattenLoop, joinPath, objInsert, objAssign, joinSingleton, pathMatches]
  refine ⟨?_, ?_, heval⟩
  · intro p _
    simp [pathMatches]
  · rw [heval]
    have hn : nodeCount [FieldSchema.mk "a" ["string"] none, FieldSchema.mk "a" ["number"] none]
        = 2 := by
      simp [nodeCount]
    rw [hn]
    decide

/-- C5 as amended: with no excluded paths, the flattened map holds exactly one
entry per distinct dotted path of the tree, so its size is the number of
distinct paths (duplicated paths collapse, later writes overwriting earlier
ones). -/
theorem flattenCountDistinctPaths (ff : List String) (fields : List FieldSchema)
    (h : ∀ p ∈ treePaths fields "", pathMatches ff p = false) :
    (flattenFields ff fields "").length = (treePaths fields "").dedup.length := by
  have hkeys : ∀ k, k ∈ (flattenFields ff fields "").map Prod.fst ↔ k ∈ treePaths fields "" := by
    intro k
    unfold flattenFields
    rw [mem_keys_flattenLoop (forestWeight fields) fields le_rfl]
    simp only [List.map_nil, List.not_mem_nil, false_or]
    constructor
    · exact fun h2 => h2.1
    · exact fun h2 => ⟨h2, h k h2⟩
  have hnodup : ((flattenFields ff fields "").map Prod.fst).Nodup := by
    unfold flattenFields
    exact nodup_keys_flattenLoop (forestWeight fields) fields le_rfl ff "" [] (by simp)
  have hfin : ((flattenFields ff fields "").map Prod.fst).toFinset =
      (treePaths fields "").toFinset := by
    ext a
    simp only [List.mem_toFinset]
    exact hkeys a
  have hlen : (flattenFields ff fields "").length =
      ((flattenFields ff fields "").map Prod.fst).length := by
    simp
  rw [hlen]
  calc ((flattenFields ff fields "").map Prod.fst).length
      = ((flattenFields ff fields "").map Prod.fst).toFinset.card :=
        (List.toFinset_card_of_nodup hnodup).symm
    _ = (treePaths fields "").toFinset.card := by rw [hfin]
    _ = (treePaths fields "").dedup.length := List.card_toFinset _

/-- Witness for C5 as amended: a one-node tree with no matching exclusion has
one flat entry and one distinct path. -/
theorem flattenCountDistinctPaths_witness :
    (∀ p ∈ treePaths [FieldSchema.mk "a" ["string"] none] "",
      pathMatches ["__v"] p = false) ∧
    (flattenFields ["__v"] [FieldSchema.mk "a" ["string"] none] "").length =
      (treePaths [FieldSchema.mk "a" ["string"] none] "").dedup.length := by
  have ht : treePaths [FieldSchema.mk "a" ["string"] none] "" = ["a"] := by
    simp [treePaths, joinPath]
  have hp : ∀ p ∈ treePaths [FieldSchema.mk "a" ["string"] none] "",
      pathMatches ["__v"] p = false := by
    rw [ht]
    intro p hpm
    simp only [List.mem_singleton] at hpm
    subst hpm
    decide
  exact ⟨hp, flattenCountDistinctPaths ["__v"] [FieldSchema.mk "a" ["string"] none] hp⟩

/-- Recursive occurrence of a node in a schema forest: a direct member, or a
node occurring within some member's sub-fields. -/
inductive OccursIn : FieldSchema → List FieldSchema → Prop where
  | here : ∀ {f : FieldSchema} {fs : List FieldSchema}, f ∈ fs → OccursIn f fs
  | deeper : ∀ {f g : FieldSchema} {subs fs : List FieldSchema},
      g ∈ fs → g.subFields = some subs → OccursIn f subs → OccursIn f fs

theorem occursIn_append {f : FieldSchema} {l1 l2 : List FieldSchema}
    (h : OccursIn f (l1 ++ l2)) : OccursIn f l1 ∨ OccursIn f l2 := by
  cases h with
  | here hm =>
    rcases List.mem_append.mp hm with h1 | h1
    · exact Or.inl (OccursIn.here h1)
    · exact Or.inr (OccursIn.here h1)
  | deeper hg hs ho =>
    rcases List.mem_append.mp hg with h1 | h1
    · exact Or.inl (OccursIn.deeper h1 hs ho)
    · exact Or.inr (OccursIn.deeper h1 hs ho)

theorem getSubFields_object (v : Value) (d : Nat) :
    getSubFields v "object" d = some (getSchemaFromArrayDocs [v] (d + 1)) := by
  unfold getSubFields
  simp

theorem getSubFields_array_composite (e : Value) (es : List Value) (d : Nat)
    (h : (isJsArray e || (typeofTag e == "object")) = true) :
    getSubFields (Value.vArray (e :: es)) "array" d =
      some (getSchemaFromArrayDocs (e :: es) (d + 1)) := by
  simp [getSubFields, h]

theorem getSubFields_array_primitive (e : Value) (es : List Value) (d : Nat)
    (h : (isJsArray e || (typeofTag e == "object")) = false) :
    getSubFields (Value.vArray (e :: es)) "array" d = none := by
  simp [getSubFields, h]

theorem getSubFields_array_empty (d : Nat) :
    getSubFields (Value.vArray []) "array" d = none := by
  simp [getSubFields]

theorem getSubFields_array_nonarray (v : Value) (d : Nat) (h : isJsArray v = false) :
    getSubFields v "array" d = none := by
  unfold getSubFields
  cases v <;> simp_all [isJsArray]

theorem getSubFields_other (v : Value) (ft : String) (d : Nat)
    (h1 : ¬ft = "array") (h2 : ¬ft = "object") : getSubFields v ft d = none := by
  unfold getSubFields
  simp [h1, h2]

theorem mem_docFields (pairs : List (String × Value)) (depth : Nat) (f : FieldSchema)
    (h : f ∈ docFields pairs depth) :
    ∃ k v, f = FieldSchema.mk k [getFieldType v] (getSubFields v (getFieldType v) depth) := by
  induction pairs with
  | nil => simp [docFields] at h
  | cons p rest ih =>
    obtain ⟨k, v⟩ := p
    simp only [docFields, List.mem_cons] at h
    rcases h with h | h
    · exact ⟨k, v, h⟩
    · exact ih h

theorem mem_getSchemaFromArrayDocs (docs : List Value) (depth : Nat) (f : FieldSchema)
    (h : f ∈ getSchemaFromArrayDocs docs depth) :
    ∃ k v, f = FieldSchema.mk k [getFieldType v] (getSubFields v (getFieldType v) depth) := by
  induction docs with
  | nil => simp [getSchemaFromArrayDocs] at h
  | cons doc rest ih =>
    simp only [getSchemaFromArrayDocs, List.mem_append] at h
    rcases h with h | h
    · exact mem_docFields _ _ _ h
    · exact ih h

theorem getSubFields_some_shape (v : Value) (ft : String) (d : Nat) (subs : List FieldSchema)
    (h : getSubFields v ft d = some subs) :
    ∃ docs d2, subs = getSchemaFromArrayDocs docs d2 := by
  by_cases h1 : ft = "array"
  · subst h1
    cases v with
    | vArray es =>
      cases es with
      | nil =>
        rw [getSubFields_array_empty] at h
        cases h
      | cons e es2 =>
        by_cases hc : (isJsArray e || (typeofTag e == "object")) = true
        · rw [getSubFields_array_composite e es2 d hc] at h
          injection h with h2
          exact ⟨e :: es2, d + 1, h2.symm⟩
        · rw [getSubFields_array_primitive e es2 d (by simpa using hc)] at h
          cases h
    | vString s =>
      rw [getSubFields_array_nonarray _ _ (by simp [isJsArray])] at h
      cases h
    | vNumber x =>
      rw [getSubFields_array_nonarray _ _ (by simp [isJsArray])] at h
      cases h
    | vBool b =>
      rw [getSubFields_array_nonarray _ _ (by simp [isJsArray])] at h
      cases h
    | vNull =>
      rw [getSubFields_array_nonarray _ _ (by simp [isJsArray])] at h
      cases h
    | vUndefined =>
      rw [getSubFields_array_nonarray _ _ (by simp [isJsArray])] at h
      cases h
    | vObject fields =>
      rw [getSubFields_array_nonarray _ _ (by simp [isJsArray])] at h
      cases h
  · by_cases h2 : ft = "object"
    · subst h2
      rw [getSubFields_object] at h
      injection h with h3
      exact ⟨[v], d + 1, h3.symm⟩
    · rw [getSubFields_other v ft d h1 h2] at h
      cases h

theorem occursIn_gSFAD_shape : ∀ (f : FieldSchema) (fs : List FieldSchema), OccursIn f fs →
    ∀ (docs : List Value) (depth : Nat), fs = getSchemaFromArrayDocs docs depth →
    ∃ k v d, f = FieldSchema.mk k [getFieldType v] (getSubFields v (getFieldType v) d) := by
  intro f fs h
  induction h with
  | here hm =>
    intro docs depth heq
    subst heq
    obtain ⟨k, v, hf⟩ := mem_getSchemaFromArrayDocs _ _ _ hm
    exact ⟨k, v, depth, hf⟩
  | deeper hg hs ho ih =>
    intro docs depth heq
    subst heq
    obtain ⟨k, v, hgshape⟩ := mem_getSchemaFromArrayDocs _ _ _ hg
    rw [hgshape] at hs
    simp only [FieldSchema.subFields] at hs
    obtain ⟨docs2, d2, hsubs⟩ := getSubFields_some_shape v _ depth _ hs
    exact ih docs2 d2 hsubs

theorem occursIn_subDocsLoop_shape : ∀ (vs : List Value) (depth : Nat) (f : FieldSchema),
    OccursIn f (subDocsLoop depth vs) →
    ∃ k v d, f = FieldSchema.mk k [getFieldType v] (getSubFields v (getFieldType v) d) := by
  intro vs
  induction vs with
  | nil =>
    intro depth f h
    cases h with
    | here hm => simp [subDocsLoop] at hm
    | deeper hg _ _ => simp [subDocsLoop] at hg
  | cons v rest ih =>
    intro depth f h
    have h2 : OccursIn f (getSchemaFromArrayDocs [v] depth ++ subDocsLoop depth rest) := by
      simpa [subDocsLoop] using h
    rcases occursIn_append h2 with h3 | h3
    · exact occursIn_gSFAD_shape f _ h3 [v] depth rfl
    · exact ih depth f h3

theorem mem_getSchema_shape (coll : List Doc) (depth : Nat) (f : FieldSchema)
    (h : f ∈ getSchema coll depth) :
    ∃ kt : String × List String,
      f = FieldSchema.mk kt.1
        [if kt.2.contains "object" then "object" else kt.2.headD "undefined"]
        (if (if kt.2.contains "object" then "object" else kt.2.headD "undefined") = "object"
         then some (getSchemaFromSubDocs coll kt.1 (depth + 1)) else none) := by
  unfold getSchema at h
  rw [List.mem_map] at h
  obtain ⟨kt, _, hf⟩ := h
  exact ⟨kt, hf.symm⟩

/-- A node was discovered as an array whose sampled first element was
composite: it carries types `["array"]` and the sub-fields derived from the
whole array. -/
def DiscoveredAsCompositeArray (f : FieldSchema) : Prop :=
  ∃ k d e es, (isJsArray e || (typeofTag e == "object")) = true ∧
    f = FieldSchema.mk k ["array"] (getSubFields (Value.vArray (e :: es)) "array" d)

theorem produced_iff (k : String) (v : Value) (d : Nat) :
    ((FieldSchema.mk k [getFieldType v] (getSubFields v (getFieldType v) d)).subFields.isSome ↔
      ((FieldSchema.mk k [getFieldType v] (getSubFields v (getFieldType v) d)).types =
          ["object"] ∨
        DiscoveredAsCompositeArray
          (FieldSchema.mk k [getFieldType v] (getSubFields v (getFieldType v) d)))) := by
  cases v with
  | vObject fields =>
    have hft : getFieldType (Value.vObject fields) = "object" := by
      simp [getFieldType, isJsArray, typeofTag]
    rw [hft, getSubFields_object]
    simp [FieldSchema.subFields, FieldSchema.types]
  | vNull =>
    have hft : getFieldType Value.vNull = "object" := by
      simp [getFieldType, isJsArray, typeofTag]
    rw [hft, getSubFields_object]
    simp [FieldSchema.subFields, FieldSchema.types]
  | vString s =>
    have hft : getFieldType (Value.vString s) = "string" := by
      simp [getFieldType, isJsArray, typeofTag]
    rw [hft, getSubFields_other _ _ _ (by decide) (by decide)]
    constructor
    · intro h2
      simp [FieldSchema.subFields] at h2
    · rintro (h2 | ⟨k2, d2, e, es, hc, hf2⟩)
      · simp [FieldSchema.types] at h2
      · exfalso
        injection hf2 with h3 h4 h5
        simp at h4
  | vNumber x =>
    have hft : getFieldType (Value.vNumber x) = "number" := by
      simp [getFieldType, isJsArray, typeofTag]
    rw [hft, getSubFields_other _ _ _ (by decide) (by decide)]
    constructor
    · intro h2
      simp [FieldSchema.subFields] at h2
    · rintro (h2 | ⟨k2, d2, e, es, hc, hf2⟩)
      · simp [FieldSchema.types] at h2
      · exfalso
        injection hf2 with h3 h4 h5
        simp at h4
  | vBool b =>
    have hft : getFieldType (Value.vBool b) = "boolean" := by
      simp [getFieldType, isJsArray, typeofTag]
    rw [hft, getSubFields_other _ _ _ (by decide) (by decide)]
    constructor
    · intro h2
      simp [FieldSchema.subFields] at h2
    · rintro (h2 | ⟨k2, d2, e, es, hc, hf2⟩)
      · simp [FieldSchema.types] at h2
      · exfalso
        injection hf2 with h3 h4 h5
        simp at h4
  | vUndefined =>
    have hft : getFieldType Value.vUndefined = "undefined" := by
      simp [getFieldType, isJsArray, typeofTag]
    rw [hft, getSubFields_other _ _ _ (by decide) (by decide)]
    constructor
    · intro h2
      simp [FieldSchema.subFields] at h2
    · rintro (h2 | ⟨k2, d2, e, es, hc, hf2⟩)
      · simp [FieldSchema.types] at h2
      · exfalso
        injection hf2 with h3 h4 h5
        simp at h4
  | vArray es =>
    rw [getFieldType_vArray]
    cases es with
    | nil =>
      rw [getSubFields_array_empty]
      constructor
      · intro h2
        simp [FieldSchema.subFields] at h2
      · rintro (h2 | ⟨k2, d2, e, es2, hc, hf2⟩)
        · simp [FieldSchema.types] at h2
        · exfalso
          injection hf2 with h3 h4 h5
          rw [getSubFields_array_composite e es2 d2 hc] at h5
          cases h5
    | cons e es2 =>
      by_cases hc : (isJsArray e || (typeofTag e == "object")) = true
      · rw [getSubFields_array_composite e es2 d hc]
        constructor
        · intro _
          exact Or.inr ⟨k, d, e, es2, hc,
            by rw [getSubFields_array_composite e es2 d hc]⟩
        · intro _
          simp [FieldSchema.subFields]
      · have hc2 : (isJsArray e || (typeofTag e == "object")) = false := by
          simpa using hc
        rw [getSubFields_array_primitive e es2 d hc2]
        constructor
        · intro h2
          simp [FieldSchema.subFields] at h2
        · rintro (h2 | ⟨k2, d2, e2, es3, hc3, hf2⟩)
          · simp [FieldSchema.types] at h2
          · exfalso
            injection hf2 with h3 h4 h5
            rw [getSubFields_array_composite e2 es3 d2 hc3] at h5
            cases h5

/-- C6: every node produced by schema discovery has `subFields` present
exactly when it was classified `"object"` at discovery time or discovered as
an array whose sampled first element was itself composite. -/
theorem subFieldsPresenceInvariant (coll : List Doc) (depth : Nat) (f : FieldSchema)
    (h : OccursIn f (getSchema coll depth)) :
    (f.subFields.isSome ↔ (f.types = ["object"] ∨ DiscoveredAsCompositeArray f)) := by
  cases h with
  | here hm =>
    obtain ⟨kt, hf⟩ := mem_getSchema_shape coll depth f hm
    by_cases hft : (if kt.2.contains "object" then "object" else kt.2.headD "undefined")
        = "object"
    · rw [hf, if_pos hft]
      constructor
      · intro _
        left
        simp only [FieldSchema.types]
        rw [hft]
      · intro _
        simp [FieldSchema.subFields]
    · rw [hf, if_neg hft]
      constructor
      · intro h2
        simp [FieldSchema.subFields] at h2
      · rintro (h2 | ⟨k2, d2, e, es, hc, hf2⟩)
        · simp only [FieldSchema.types, List.cons.injEq, and_true] at h2
          exact absurd h2 hft
        · exfalso
          injection hf2 with h3 h4 h5
          rw [getSubFields_array_composite e es d2 hc] at h5
          cases h5
  | deeper hg hs ho =>
    rename_i g subs
    obtain ⟨kt, hg2⟩ := mem_getSchema_shape coll depth g hg
    by_cases hft : (if kt.2.contains "object" then "object" else kt.2.headD "undefined")
        = "object"
    · rw [hg2] at hs
      simp only [FieldSchema.subFields] at hs
      rw [if_pos hft] at hs
      injection hs with hs2
      subst hs2
      have ho2 : OccursIn f (subDocsLoop (depth + 1) (qualifyingSubDocs coll kt.1)) := by
        simpa [getSchemaFromSubDocs] using ho
      obtain ⟨k2, v2, d2, hf2⟩ := occursIn_subDocsLoop_shape _ _ _ ho2
      rw [hf2]
      exact produced_iff k2 v2 d2
    · rw [hg2] at hs
      simp only [FieldSchema.subFields] at hs
      rw [if_neg hft] at hs
      cases hs

/-- Witness for C6: the nested `"b"` node discovered inside an object-typed
field `"a"` is classified `"number"` and carries no sub-fields. -/
theorem subFieldsPresenceInvariant_witness :
    ((FieldSchema.mk "b" ["number"] none).subFields.isSome ↔
      ((FieldSchema.mk "b" ["number"] none).types = ["object"] ∨
        DiscoveredAsCompositeArray (FieldSchema.mk "b" ["number"] none))) := by
  have heval : getSchema [[("a", Value.vObject [("b", Value.vNumber 1)])]] 0 =
      [FieldSchema.mk "a" ["object"] (some [FieldSchema.mk "b" ["number"] none])] := by
    simp [getSchema, aggregateKeyTypes, upsert, getFieldType, isJsArray, typeofTag,
      getSchemaFromSubDocs, qualifyingSubDocs, projectField, bsonIsObject, subDocsLoop,
      getSchemaFromArrayDocs, docFields, forInPairs, getSubFields]
  refine subFieldsPresenceInvariant [[("a", Value.vObject [("b", Value.vNumber 1)])]] 0
    (FieldSchema.mk "b" ["number"] none) ?_
  rw [heval]
  exact @OccursIn.deeper (FieldSchema.mk "b" ["number"] none)
    (FieldSchema.mk "a" ["object"] (some [FieldSchema.mk "b" ["number"] none]))
    [FieldSchema.mk "b" ["number"] none]
    [FieldSchema.mk "a" ["object"] (some [FieldSchema.mk "b" ["number"] none])]
    (by simp) (by simp [FieldSchema.subFields]) (OccursIn.here (by simp))

end SchemaExtractionTool
